import Mathlib

/-!
Verification of the rime_rs composition engine core.

This file shallowly embeds the Rust sources of the repository
(`rime_core/src/{model,filter,translator,engine,context,processor,session}.rs`
and `rime_pinyin/src/lib.rs`) as executable Lean definitions and proves or
refutes the frozen specification claims about them.

Modelling conventions:
- Rust `usize` values are `Nat`; `i32`/`i64` values are `Int`, with the one
  place the source performs a narrowing cast (`as i32`) modelled explicitly
  by wrapping modulo `2^32`.
- Rust `String` is Lean `String` (a wrapper around `List Char`); the pinyin
  segmenter, which indexes by byte, is modelled on `List Char` — every index
  it uses is taken after an all-ASCII check, where bytes and chars coincide.
- `Vec` values indexed only within bounds (the DP tables and the beams) are
  modelled as total functions `Nat → _` with pointwise update.
- Rust's `sort_by`, a stable comparison sort, is modelled by
  `List.insertionSort` (also stable) over the comparator's reflexive order;
  two stable sorts over the same total preorder agree element for element.
- The `Dictionary` trait object is an arbitrary function of type `Dict`;
  the `Analyzer` trait object is an arbitrary function `String → Analysis`.
-/

namespace Rime

/-- Candidate (`rime_core/src/model.rs`): display text, optional comment,
weight (higher is better) and the covered segment index range
`[segment_start, segment_end)`. -/
structure Candidate where
  text : String
  comment : Option String
  weight : Int
  segment_start : Nat
  segment_end : Nat
deriving DecidableEq

/-- Analysis (`rime_core/src/engine.rs`): segmentation result, the token
sequence plus the display preedit. -/
structure Analysis where
  segment : List String
  preedit : String
deriving DecidableEq

/-- UiState (`rime_core/src/model.rs`): the read-only snapshot handed to
front-ends. -/
structure UiState where
  raw_input : String
  preedit : String
  segment : List String
  caret : Nat
  confirm : Nat
  confirm_text : String
  candidate_list : List Candidate
deriving DecidableEq

/-- Context (`rime_core/src/context.rs`): the single mutable session state. -/
structure Context where
  raw_input : String
  analysis : Analysis
  caret : Nat
  confirm : Nat
  confirm_text : String
deriving DecidableEq

/-- The `Default` impl for `Context`. -/
def Context.default : Context :=
  { raw_input := "", analysis := { segment := [], preedit := "" },
    caret := 0, confirm := 0, confirm_text := "" }

/-- InputEvent (`rime_core/src/key_event.rs`). -/
inductive InputEvent where
  | Char (c : Char)
  | Backspace
  | Space
  | Enter
  | Clear
  | Select (i : Nat)
  | Exit
deriving DecidableEq

/-- Action (`rime_core/src/key_event.rs`): currently only text commit. -/
inductive Action where
  | Commit (text : String)
deriving DecidableEq

/-- ProcessStatus (`rime_core/src/processor.rs`). -/
inductive ProcessStatus where
  | Consume
  | Continue
deriving DecidableEq

/-- The `Dictionary::lookup_span` capability (`rime_core/src/dictionary.rs`):
`dict segment start end limit` returns the raw candidates for the span. -/
def Dict : Type := List String → Nat → Nat → Nat → List Candidate

/-- Byte-wise strict order on text, as Rust's `str::cmp` compares strings
(UTF-8 byte order, which coincides with code-point order). -/
def str_lt : List Char → List Char → Bool
  | [], [] => false
  | [], _ :: _ => true
  | _ :: _, [] => false
  | a :: as, b :: bs =>
    if a.toNat < b.toNat then true
    else if b.toNat < a.toNat then false
    else str_lt as bs

/-- `a ≤ b` in Rust's `String` ordering. -/
def text_le (a b : String) : Bool := ! str_lt b.data a.data

/-- The reflexive order underlying the comparator
`b.weight.cmp(&a.weight).then_with(|| a.text.cmp(&b.text))` used by
`DedupSortTruncate::apply`: weight descending, then text ascending. -/
def candLe (a b : Candidate) : Prop :=
  b.weight < a.weight ∨ (a.weight = b.weight ∧ text_le a.text b.text = true)

instance : DecidableRel candLe := fun a b => by
  unfold candLe; infer_instance

/-- The duplicate test of `candidates.dedup_by(..)` in
`DedupSortTruncate::apply`: identical `(text, segment_start, segment_end)`. -/
def sameTriple (a b : Candidate) : Prop :=
  a.text = b.text ∧ a.segment_start = b.segment_start ∧ a.segment_end = b.segment_end

instance : DecidableRel sameTriple := fun a b => by
  unfold sameTriple; infer_instance

/-- `Vec::dedup_by` keeps the first of each run: each element is compared
with the last retained element and dropped when the test holds. -/
def dedup_go (last : Candidate) : List Candidate → List Candidate
  | [] => []
  | b :: rest =>
    if sameTriple b last then dedup_go last rest else b :: dedup_go b rest

/-- `candidates.dedup_by(|a, b| a.text == b.text && ..)`. -/
def dedup_by : List Candidate → List Candidate
  | [] => []
  | a :: rest => a :: dedup_go a rest

/-- The default filter (`rime_core/src/filter.rs`). -/
structure DedupSortTruncate where
  limit : Nat

/-- `DedupSortTruncate::apply`: stable-sort by weight descending then text
ascending, drop consecutive duplicates of the same
`(text, segment_start, segment_end)`, truncate to `max limit 1`. -/
def DedupSortTruncate.apply (f : DedupSortTruncate) (candidates : List Candidate) :
    List Candidate :=
  (dedup_by (List.insertionSort candLe candidates)).take (max f.limit 1)

/-- A beam-search path (`struct Path` in `rime_core/src/translator.rs`). -/
structure Path where
  text : String
  score : Int
deriving DecidableEq

/-- The comparator `|a, b| b.score.cmp(&a.score)` used to rank a beam:
score descending. -/
def pathLe (a b : Path) : Prop := b.score ≤ a.score

instance : DecidableRel pathLe := fun a b => by
  unfold pathLe; infer_instance

/-- The comparator for the final beam: score descending, then text
ascending. -/
def finalLe (a b : Path) : Prop :=
  b.score < a.score ∨ (a.score = b.score ∧ text_le a.text b.text = true)

instance : DecidableRel finalLe := fun a b => by
  unfold finalLe; infer_instance

/-- Two's-complement narrowing of an `i64` value to `i32`
(the `as i32` cast in `compose_sentence_candidates`). -/
def as_i32 (z : Int) : Int := (z + 2147483648) % 4294967296 - 2147483648

/-- DictTranslator (`rime_core/src/translator.rs`). -/
structure DictTranslator where
  dict : Dict
  max_word_length : Nat
  per_span_limit : Nat

/-- `DictTranslator::compose_sentence_candidates`: beam search over
`[start, e)`.  The `Vec<Vec<Path>>` of beams (all accesses in bounds) is
modelled as a function from position to beam. -/
def compose_sentence_candidates (t : DictTranslator) (segments : List String)
    (start e limit : Nat) : List Candidate :=
  if limit = 0 ∨ e ≤ start ∨ segments.length < e then []
  else
    let beam_k := min (max limit 8) 64
    let beams0 : Nat → List Path :=
      fun k => if k = start then [{ text := "", score := 0 }] else []
    let beams := (List.range' start (e - start)).foldl (fun beams i =>
      if (beams i).isEmpty then beams
      else
        let sorted := (List.insertionSort pathLe (beams i)).take beam_k
        let beams := fun k => if k = i then sorted else beams k
        let max_j := min (i + max t.max_word_length 1) e
        (List.range' (i + 1) (max_j - i)).foldl (fun beams j =>
          let words := t.dict segments i j (max t.per_span_limit 1)
          if words.isEmpty then beams
          else
            let len_bonus : Int := ((j - i : Nat) : Int) * 1000
            fun k =>
              if k = j then
                beams j ++ sorted.flatMap (fun p => words.map (fun w =>
                  { text := if p.text = "" then w.text else p.text ++ w.text,
                    score := p.score + w.weight + len_bonus }))
              else beams k) beams) beams0
    let finals := (List.insertionSort finalLe (beams e)).take limit
    finals.map (fun p =>
      { text := p.text, comment := some ("compose"),
        weight := as_i32 (min p.score 2147483647),
        segment_start := start, segment_end := e })

/-- `DictTranslator::translate_with_composition`: direct lookup of the full
span, then word-level lookups from `start`, then (only if still under
`limit`) beam-search composition for the remainder. -/
def DictTranslator.translate_with_composition (t : DictTranslator)
    (segment : List String) (start e limit : Nat) : List Candidate :=
  let limit := max limit 1
  let direct := (t.dict segment start e limit).map
    (fun c => { c with segment_start := start, segment_end := e })
  let max_j := min (start + max t.max_word_length 1) e
  let words := (List.range' (start + 1) (max_j - start)).flatMap (fun j =>
    (t.dict segment start j (max t.per_span_limit 1)).map
      (fun c => { c with segment_start := start, segment_end := j }))
  let out := direct ++ words
  if out.length < limit then
    out ++ compose_sentence_candidates t segment start e (limit - out.length)
  else out

/-- Engine (`rime_core/src/engine.rs`).  The `D` and `A` type parameters of
`Engine<D, A>` are the dictionary function and the analyzer function. -/
structure Engine where
  analyzer : String → Analysis
  dictionary : Dict
  candidate_limit : Nat
  max_word_length : Nat
  per_span_limit : Nat

/-- `Engine::new`: defaults `candidate_limit = 9`, `max_word_length = 4`,
`per_span_limit = 16`. -/
def Engine.new (dictionary : Dict) (analyzer : String → Analysis) : Engine :=
  { analyzer := analyzer, dictionary := dictionary,
    candidate_limit := 9, max_word_length := 4, per_span_limit := 16 }

/-- The builder method `Engine::candidate_limit` (renamed here to avoid the
clash with the field accessor): values outside `2..=9` fall back to 9. -/
def Engine.set_candidate_limit (e : Engine) (limit : Nat) : Engine :=
  if limit < 2 ∨ 9 < limit then { e with candidate_limit := 9 }
  else { e with candidate_limit := limit }

/-- `Engine::analyze`. -/
def Engine.analyze (e : Engine) (raw_input : String) : Analysis :=
  e.analyzer raw_input

/-- `Engine::compose_from_segment`: translator then filter. -/
def Engine.compose_from_segment (e : Engine) (segment : List String)
    (start stop : Nat) : List Candidate :=
  DedupSortTruncate.apply { limit := e.candidate_limit }
    (DictTranslator.translate_with_composition
      { dict := e.dictionary, max_word_length := e.max_word_length,
        per_span_limit := e.per_span_limit }
      segment start stop e.candidate_limit)

/-- `Engine::compose_with_state`: clamp `caret` to the segment length
(defaulting to the end), clamp `confirm` to `caret`, and generate candidates
only for the open span `[confirm, caret)`. -/
def Engine.compose_with_state (e : Engine) (raw_input : String)
    (analysis : Analysis) (confirm : Nat) (caret : Option Nat)
    (confirm_text : String) : UiState :=
  let preedit := analysis.preedit
  let segment := analysis.segment
  let caret := min (caret.getD segment.length) segment.length
  let confirmed := min confirm caret
  let candidate_list :=
    if segment.isEmpty ∨ caret ≤ confirmed then []
    else e.compose_from_segment segment confirmed caret
  { raw_input := raw_input, preedit := preedit, segment := segment,
    caret := caret, confirm := confirmed, confirm_text := confirm_text,
    candidate_list := candidate_list }

/-- The object-safe `EngineFacade` trait (`rime_core/src/processor.rs`)
through which processors call back into the engine. -/
structure EngineFacade where
  analyze : String → Analysis
  compose_with_state :
    String → Analysis → Nat → Option Nat → String → UiState

/-- The `EngineFacade` impl for `Engine<D, A>`. -/
def Engine.facade (e : Engine) : EngineFacade :=
  { analyze := e.analyze, compose_with_state := e.compose_with_state }

/-- `Context::reanalyze`: rerun the analyzer, move `caret` to the end of the
new segmentation and, when the old `confirm` exceeds the new `caret`, clamp
it down and discard the confirmed text. -/
def Context.reanalyze (e : EngineFacade) (ctx : Context) : Context :=
  let analysis := e.analyze ctx.raw_input
  let caret := analysis.segment.length
  if caret < ctx.confirm then
    { ctx with
      analysis := analysis
      caret := caret
      confirm := caret
      confirm_text := "" }
  else { ctx with analysis := analysis, caret := caret }

/-- `Context::ui_state`. -/
def Context.ui_state (e : EngineFacade) (ctx : Context) : UiState :=
  e.compose_with_state ctx.raw_input ctx.analysis ctx.confirm
    (some ctx.caret) ctx.confirm_text

/-- `Context::commit_on_enter`: commit `confirm_text ++ raw_input` when
non-empty; always reset afterwards. -/
def Context.commit_on_enter (ctx : Context) : Context × List Action :=
  let actions :=
    if ctx.raw_input ≠ "" ∨ ctx.confirm_text ≠ "" then
      let s := ctx.confirm_text ++ ctx.raw_input
      if s ≠ "" then [Action.Commit s] else []
    else []
  (Context.default, actions)

/-- `Context::select_candidate`: validate the candidate at `index` against
the current snapshot, then advance `confirm`; on reaching `caret` either
emit `Commit` of the taken `confirm_text` (when non-empty) or reset. -/
def Context.select_candidate (e : EngineFacade) (ctx : Context)
    (index : Nat) : Context × List Action :=
  if ctx.raw_input = "" ∨ ctx.caret ≤ ctx.confirm then (ctx, [])
  else
    match (ctx.ui_state e).candidate_list[index]? with
    | none => (ctx, [])
    | some cand =>
      if cand.segment_start ≠ ctx.confirm then (ctx, [])
      else if cand.segment_end ≤ cand.segment_start ∨ ctx.caret < cand.segment_end then
        (ctx, [])
      else
        let ctx2 : Context :=
          { ctx with
            confirm_text := ctx.confirm_text ++ cand.text
            confirm := cand.segment_end }
        if ctx2.confirm = ctx2.caret then
          if ctx2.confirm_text ≠ "" then
            ({ ctx2 with confirm_text := "" }, [Action.Commit ctx2.confirm_text])
          else (Context.default, [])
        else (ctx2, [])

/-- EditingProcessor (`rime_core/src/processor.rs`): `Char` appends the
lowercased letter (ASCII letters and the break marker only) and reanalyzes;
`Backspace` pops and reanalyzes; `Clear` resets; everything else continues.
`Char::is_ascii_alphabetic` and `to_ascii_lowercase` coincide with Lean's
ASCII-only `Char.isAlpha`/`Char.toLower`. -/
def EditingProcessor.process (e : EngineFacade) (ctx : Context)
    (ev : InputEvent) : ProcessStatus × Context × List Action :=
  match ev with
  | InputEvent.Char ch =>
    if ch.isAlpha ∨ ch = Char.ofNat 39 then
      (ProcessStatus.Consume,
       Context.reanalyze e { ctx with raw_input := ctx.raw_input.push ch.toLower },
       [])
    else (ProcessStatus.Consume, ctx, [])
  | InputEvent.Backspace =>
    (ProcessStatus.Consume,
     Context.reanalyze e { ctx with raw_input := ctx.raw_input.dropRight 1 },
     [])
  | InputEvent.Clear => (ProcessStatus.Consume, Context.default, [])
  | _ => (ProcessStatus.Continue, ctx, [])

/-- SelectionProcessor: `Space` selects candidate 0, `Select i` selects
candidate `i`; both consume. -/
def SelectionProcessor.process (e : EngineFacade) (ctx : Context)
    (ev : InputEvent) : ProcessStatus × Context × List Action :=
  match ev with
  | InputEvent.Space =>
    let r := Context.select_candidate e ctx 0
    (ProcessStatus.Consume, r.1, r.2)
  | InputEvent.Select i =>
    let r := Context.select_candidate e ctx i
    (ProcessStatus.Consume, r.1, r.2)
  | _ => (ProcessStatus.Continue, ctx, [])

/-- EnterCommitProcessor: `Enter` commits; everything else continues. -/
def EnterCommitProcessor.process (ctx : Context) (ev : InputEvent) :
    ProcessStatus × Context × List Action :=
  match ev with
  | InputEvent.Enter =>
    let r := Context.commit_on_enter ctx
    (ProcessStatus.Consume, r.1, r.2)
  | _ => (ProcessStatus.Continue, ctx, [])

/-- `Session::handle` (`rime_core/src/session.rs`): walk the default
processor chain (editing, selection, enter-commit), stop at the first
`Consume`, and aggregate the emitted actions.  The Rust method additionally
returns `ctx.ui_state(&engine)`, a pure function of the resulting context. -/
def Session.handle (e : EngineFacade) (ctx : Context) (ev : InputEvent) :
    Context × List Action :=
  let r1 := EditingProcessor.process e ctx ev
  if r1.1 = ProcessStatus.Consume then (r1.2.1, r1.2.2)
  else
    let r2 := SelectionProcessor.process e r1.2.1 ev
    if r2.1 = ProcessStatus.Consume then (r2.2.1, r1.2.2 ++ r2.2.2)
    else
      let r3 := EnterCommitProcessor.process r2.2.1 ev
      (r3.2.1, r1.2.2 ++ r2.2.2 ++ r3.2.2)

/-- The context reached by dispatching a list of events through
`Session::handle`, starting from the default (empty) context that
`Session::new` installs. -/
def Session.run (e : EngineFacade) (evs : List InputEvent) : Context :=
  evs.foldl (fun ctx ev => (Session.handle e ctx ev).1) Context.default

/-!
The quanpin preeditor (`rime_pinyin/src/lib.rs`).

The syllable vocabulary `SYLLABARY` is generated at build time and is not
part of the sources; the definitions below therefore take the sorted
`syllables` field of `QuanpinPreeditor` as an explicit parameter
`vocab : List (List Char × Int)` (spelling, frequency), in the evaluation
order the constructor establishes (frequency descending, then spelling
length descending, then lexicographic).

Strings are modelled as `List Char`.  The Rust code indexes chunks by byte,
but only after checking that every byte is an ASCII lowercase letter, where
bytes and chars coincide; the `'` break marker is the one-byte char 39.
-/

namespace Pinyin

/-- The break marker `'` (apostrophe). -/
def breakMarker : Char := Char.ofNat 39

/-- `u8::is_ascii_lowercase`, stated on the code point (the text it is
applied to is ASCII, where bytes and code points agree). -/
def is_ascii_lowercase (c : Char) : Bool := 97 ≤ c.toNat && c.toNat ≤ 122

/-- `u8::to_ascii_lowercase`: shift the ASCII uppercase range onto the
lowercase range, leave everything else alone. -/
def to_ascii_lowercase (c : Char) : Char :=
  if 65 ≤ c.toNat ∧ c.toNat ≤ 90 then Char.ofNat (c.toNat + 32) else c

/-- `rest.starts_with(sy)`: `starts_with l p` is true when `p` is a prefix
of `l`. -/
def starts_with : List Char → List Char → Bool
  | _, [] => true
  | [], _ :: _ => false
  | a :: l, b :: p => a == b && starts_with l p

/-- The two DP tables of `segment_chunk` (`best_score` and `prev`), each a
`Vec` of length `n + 1` accessed only in bounds, modelled as functions. -/
structure DP where
  best : Nat → Option Int
  prev : Nat → Option (Nat × List Char × Int)

/-- Initial DP state: `best_score[0] = Some(0)`, everything else `None`. -/
def dpInit : DP :=
  { best := fun k => if k = 0 then some 0 else none
    prev := fun _ => none }

/-- Record choice `(i, sy, freq)` with `score` at position `j`. -/
def dpUpdate (st : DP) (j : Nat) (score : Int) (entry : Nat × List Char × Int) : DP :=
  { best := fun k => if k = j then some score else st.best k
    prev := fun k => if k = j then some entry else st.prev k }

/-- The body of the inner vocabulary loop of `segment_chunk`: if spelling
`sf.1` matches the chunk at `i`, improve `best_score[i + len]` on a
strictly greater score (`base` is `best_score[i]`, read before the loop). -/
def dpTry (chunk : List Char) (i : Nat) (base : Int) (st : DP)
    (sf : List Char × Int) : DP :=
  if starts_with (chunk.drop i) sf.1 then
    let j := i + sf.1.length
    let score := base + (sf.1.length : Int) * 10000 + sf.2
    match st.best j with
    | none => dpUpdate st j score (i, sf.1, sf.2)
    | some cur => if cur < score then dpUpdate st j score (i, sf.1, sf.2) else st
  else st

/-- One iteration of the outer DP loop of `segment_chunk` at position `i`:
skip when `best_score[i]` is undefined, otherwise run the vocabulary
loop. -/
def dpStep (vocab : List (List Char × Int)) (chunk : List Char) (st : DP) (i : Nat) : DP :=
  match st.best i with
  | none => st
  | some base => vocab.foldl (dpTry chunk i base) st

/-- The full forward DP of `segment_chunk` over positions `0 .. n-1`. -/
def runDP (vocab : List (List Char × Int)) (chunk : List Char) : DP :=
  (List.range chunk.length).foldl (dpStep vocab chunk) dpInit

/-- The backtracking loop of `segment_chunk`: follow `prev` from `cur` back
to `0`, collecting the chosen spellings in order.  The Rust `while` loop
has no fuel; it terminates because every recorded spelling is non-empty.
`fuel` bounds the number of steps (a call with exhausted fuel and `cur ≠ 0`
models the divergence the source would exhibit on an empty spelling). -/
def backtrack (prev : Nat → Option (Nat × List Char × Int)) :
    Nat → Nat → Option (List (List Char))
  | 0, cur => if cur = 0 then some [] else none
  | fuel + 1, cur =>
    if cur = 0 then some []
    else
      match prev cur with
      | none => none
      | some (p, sy, _) => (backtrack prev fuel p).map (fun ts => ts ++ [sy])

/-- `QuanpinPreeditor::segment_chunk`: empty chunks parse to nothing, a
chunk with a non-lowercase byte fails, otherwise run the DP and backtrack
from `n` when `best_score[n]` is defined. -/
def segment_chunk (vocab : List (List Char × Int)) (chunk : List Char) :
    Option (List (List Char)) :=
  if chunk = [] then some []
  else if ! chunk.all is_ascii_lowercase then none
  else
    match (runDP vocab chunk).best chunk.length with
    | none => none
    | some _ => backtrack (runDP vocab chunk).prev chunk.length chunk.length

/-- `QuanpinPreeditor::segment`: split the input on the `'` break marker
and segment each chunk independently, concatenating the results;  any
failing chunk fails the whole parse. -/
def segment (vocab : List (List Char × Int)) (input : List Char) :
    Option (List (List Char)) :=
  (input.splitOn breakMarker).foldlM
    (fun out chunk => (segment_chunk vocab chunk).map (fun seg => out ++ seg)) []

/-- Whether every char is an ASCII lowercase letter or the break marker
(the `letters_only` test of the fallback). -/
def letters_only (l : List Char) : Bool :=
  l.all (fun c => is_ascii_lowercase c || c == breakMarker)

/-- `<QuanpinPreeditor as Analyzer>::analyze`: lowercase, try the syllable
DP, and on failure fall back to initials mode (single-letter tokens,
break markers dropped) for letters-only input of length 1–6, else pass the
(lowercased) input through with no tokens.  Rust measures the length in
bytes; in both places the length is used the input is all ASCII, where
bytes and chars agree. -/
def analyze (vocab : List (List Char × Int)) (input : String) : Analysis :=
  if input.data = [] then { segment := [], preedit := "" }
  else
    let low := input.data.map to_ascii_lowercase
    match segment vocab low with
    | some (s :: rest) =>
      { segment := (s :: rest).map (fun t => String.mk t)
        preedit := String.intercalate (" ") ((s :: rest).map (fun t => String.mk t)) }
    | _ =>
      if letters_only low ∧ 1 ≤ low.length ∧ low.length ≤ 6 then
        let segments := (low.filter (fun c => c ≠ breakMarker)).map
          (fun c => String.mk [c])
        { segment := segments, preedit := String.intercalate (" ") segments }
      else { segment := [], preedit := String.mk low }

/-- Definedness of `best_score` entries is monotone along the DP loops:
`DPle s t` says every position defined in `s` is defined in `t`. -/
def DPle (s t : DP) : Prop :=
  ∀ j, (s.best j).isSome = true → (t.best j).isSome = true

/-- The backtracking invariant the DP loops maintain: every defined
position `j > 0` carries a recorded choice `(p, sy, f)` of a non-empty
vocabulary spelling matching the chunk at `p` with `p + |sy| = j` and `p`
itself defined. -/
def Inv (vocab : List (List Char × Int)) (chunk : List Char) (st : DP) : Prop :=
  ∀ j, 0 < j → (st.best j).isSome = true →
    ∃ p sy f, st.prev j = some (p, sy, f) ∧ (sy, f) ∈ vocab ∧ sy ≠ [] ∧
      p + sy.length = j ∧ starts_with (chunk.drop p) sy = true ∧
      (st.best p).isSome = true

end Pinyin

/-- The reachable-state invariant of claim C2:
`confirm ≤ caret ≤ len(segment)` (`0 ≤ confirm` holds by the `Nat` type,
as `confirm` is a `usize`). -/
def ContextInv (ctx : Context) : Prop :=
  ctx.confirm ≤ ctx.caret ∧ ctx.caret ≤ ctx.analysis.segment.length

/-!  Concrete instances used by counterexamples and witnesses. -/

/-- A dictionary returning one fixed candidate for every queried span. -/
def dictOne : Dict :=
  fun _ _ _ _ => [{ text := "x", comment := none, weight := 0,
                    segment_start := 0, segment_end := 0 }]

/-- A dictionary returning no candidates. -/
def emptyDict : Dict := fun _ _ _ _ => []

/-- An analyzer knowing the spellings `ni` (and the single letter `n` while
it is being typed); any other input passes through unsegmented. -/
def niAnalyzer : String → Analysis := fun raw =>
  if raw = "ni" then { segment := ["ni"], preedit := "ni" }
  else if raw = "n" then { segment := ["n"], preedit := "n" }
  else { segment := [], preedit := raw }

/-- A dictionary with the single entry 你 for the span `[ni]`. -/
def niDict : Dict := fun seg s e _ =>
  if seg = ["ni"] ∧ s = 0 ∧ e = 1 then
    [{ text := "你", comment := none, weight := 1,
       segment_start := 0, segment_end := 0 }]
  else []

/-- The engine over `niDict` and `niAnalyzer` with default configuration. -/
def niFacade : EngineFacade := (Engine.new niDict niAnalyzer).facade

/-- A facade whose snapshots never carry candidates. -/
def nilFacade : EngineFacade :=
  { analyze := fun raw => { segment := [], preedit := raw }
    compose_with_state := fun raw analysis _ _ ct =>
      { raw_input := raw, preedit := analysis.preedit,
        segment := analysis.segment, caret := 0, confirm := 0,
        confirm_text := ct, candidate_list := [] } }

/-- A three-spelling vocabulary `ab`, `a`, `b` (all frequency 0), listed in
the constructor's evaluation order (frequency desc, length desc, lexical
asc). -/
def vocabAB : List (List Char × Int) :=
  [(.cons ('a') [('b')], 0), ([('a')], 0), ([('b')], 0)]

/-- A one-spelling vocabulary containing only `ni`. -/
def vocabNi : List (List Char × Int) := [(.cons ('n') [('i')], 1)]

end Rime

namespace Rime

/-- `select_candidate` emits at most one action on every path. -/
theorem select_candidate_actions_le_one (e : EngineFacade) (ctx : Context)
    (i : Nat) : (Context.select_candidate e ctx i).2.length ≤ 1 := by
  unfold Context.select_candidate
  split
  · simp
  · split
    · simp
    · split
      · simp
      · split
        · simp
        · dsimp only
          split
          · split <;> simp
          · simp

/-- `commit_on_enter` emits at most one action on every path. -/
theorem commit_on_enter_actions_le_one (ctx : Context) :
    (Context.commit_on_enter ctx).2.length ≤ 1 := by
  unfold Context.commit_on_enter
  dsimp only
  split
  · split <;> simp
  · simp

/-- C10: a single `InputEvent` dispatched through `Session::handle` yields
at most one `Action` — every processor path emits zero or one `Commit`,
and the chain stops at the first consuming processor. -/
theorem C10_handle_at_most_one_action (e : EngineFacade) (ctx : Context)
    (ev : InputEvent) : (Session.handle e ctx ev).2.length ≤ 1 := by
  cases ev <;>
    simp only [Session.handle, EditingProcessor.process,
      SelectionProcessor.process, EnterCommitProcessor.process] <;>
    (try split) <;>
    simp [select_candidate_actions_le_one, commit_on_enter_actions_le_one]

/-- C9: the builder `Engine::candidate_limit` is total on `u8`, keeps a
value in `2..=9` and normalizes everything else to the default 9. -/
theorem C9_candidate_limit_normalized (d : Dict) (a : String → Analysis)
    (n : Nat) (h : n < 256) :
    ((Engine.new d a).set_candidate_limit n).candidate_limit =
      if 2 ≤ n ∧ n ≤ 9 then n else 9 := by
  unfold Engine.set_candidate_limit
  by_cases h2 : n < 2 ∨ 9 < n
  · rw [if_pos h2, if_neg (by omega)]
  · rw [if_neg h2, if_pos (by omega)]

/-- Witness for C9 at the concrete u8 value 0. -/
theorem C9_candidate_limit_normalized_witness :
    ((Engine.new emptyDict niAnalyzer).set_candidate_limit 0).candidate_limit =
      if 2 ≤ 0 ∧ 0 ≤ 9 then 0 else 9 :=
  C9_candidate_limit_normalized emptyDict niAnalyzer 0 (by decide)

/-- C7: a selection whose snapshot candidate at `index` is absent, starts
away from `confirm`, is empty, or overshoots `caret`, leaves the `Context`
unchanged and returns no action. -/
theorem C7_invalid_selection_is_noop (e : EngineFacade) (ctx : Context)
    (index : Nat)
    (h : ∀ cand, (ctx.ui_state e).candidate_list[index]? = some cand →
      cand.segment_start ≠ ctx.confirm ∨ cand.segment_end ≤ cand.segment_start ∨
      ctx.caret < cand.segment_end) :
    Context.select_candidate e ctx index = (ctx, []) := by
  unfold Context.select_candidate
  split
  · rfl
  · split
    · rfl
    · rename_i cand hcand
      have h3 := h cand hcand
      by_cases hs : cand.segment_start = ctx.confirm
      · have h4 : cand.segment_end ≤ cand.segment_start ∨ ctx.caret < cand.segment_end := by
          rcases h3 with h1 | h2 | h2
          · exact absurd hs h1
          · exact Or.inl h2
          · exact Or.inr h2
        rw [if_neg (fun hne => hne hs), if_pos h4]
      · rw [if_pos hs]

/-- Witness for C7: on a facade with an empty snapshot, selecting index 0
from the default context is a no-op. -/
theorem C7_invalid_selection_is_noop_witness :
    Context.select_candidate nilFacade Context.default 0 = (Context.default, []) :=
  C7_invalid_selection_is_noop nilFacade Context.default 0
    (fun cand hc => by simp [Context.ui_state, nilFacade] at hc)

/-- The default context satisfies the C2 invariant. -/
theorem contextInv_default : ContextInv Context.default := by
  constructor <;> simp [Context.default, ContextInv]

/-- `reanalyze` re-establishes the invariant from any state. -/
theorem contextInv_reanalyze (e : EngineFacade) (ctx : Context) :
    ContextInv (Context.reanalyze e ctx) := by
  unfold Context.reanalyze ContextInv
  dsimp only
  split
  · simp
  · simp
    omega

/-- `select_candidate` preserves the invariant. -/
theorem contextInv_select_candidate (e : EngineFacade) (ctx : Context)
    (i : Nat) (h : ContextInv ctx) :
    ContextInv (Context.select_candidate e ctx i).1 := by
  unfold Context.select_candidate
  split
  · exact h
  · split
    · exact h
    · rename_i cand hcand
      split
      · exact h
      · split
        · exact h
        · rename_i hok
          dsimp only
          split
          · split
            · exact ⟨by simp; omega, by simpa using h.2⟩
            · exact contextInv_default
          · exact ⟨by simp; omega, by simpa using h.2⟩

/-- `commit_on_enter` preserves the invariant. -/
theorem contextInv_commit_on_enter (ctx : Context) :
    ContextInv (Context.commit_on_enter ctx).1 := by
  unfold Context.commit_on_enter
  exact contextInv_default

/-- One `Session::handle` step preserves the invariant. -/
theorem contextInv_handle (e : EngineFacade) (ctx : Context)
    (ev : InputEvent) (h : ContextInv ctx) :
    ContextInv (Session.handle e ctx ev).1 := by
  cases ev <;>
    simp only [Session.handle, EditingProcessor.process,
      SelectionProcessor.process, EnterCommitProcessor.process]
  case Char ch =>
    split <;> simp [contextInv_reanalyze, h]
  case Backspace => simpa using contextInv_reanalyze e _
  case Space => simpa using contextInv_select_candidate e ctx 0 h
  case Enter => simpa using contextInv_commit_on_enter ctx
  case Clear => simpa using contextInv_default
  case Select i => simpa using contextInv_select_candidate e ctx i h
  case Exit => simpa using h

/-- C2: after any sequence of input events dispatched through
`Session::handle` from the default context (so in particular after each
event of any sequence, since every prefix is itself a sequence), the
context satisfies `0 ≤ confirm ≤ caret ≤ len(segment)`.  The facade is
arbitrary, which covers every `Engine<D, P>`. -/
theorem C2_confirm_caret_invariant (e : EngineFacade) (evs : List InputEvent) :
    (Session.run e evs).confirm ≤ (Session.run e evs).caret ∧
    (Session.run e evs).caret ≤ (Session.run e evs).analysis.segment.length := by
  suffices h : ∀ ctx, ContextInv ctx → ContextInv (evs.foldl (fun c ev => (Session.handle e c ev).1) ctx) from
    h Context.default contextInv_default
  induction evs with
  | nil => exact fun ctx h => h
  | cons ev t ih => exact fun ctx h => ih _ (contextInv_handle e ctx ev h)

/-- C1 (code bug): from the empty context, typing `n`, `i` against an
engine that segments `ni` into one token with one dictionary candidate 你,
then selecting it, reaches `confirm == caret` and emits `Commit("你")`,
but the context is NOT fully reset: `raw_input` is still `"ni"` and
`caret = confirm = 1`; only `confirm_text` was cleared.  This contradicts
the claim, the spec's lifecycle rule, and the source's own doc comment on
`select_candidate` (Commit 并 reset). -/
theorem C1_full_commit_leaves_state :
    Session.handle niFacade
        (Session.run niFacade [InputEvent.Char ('n'), InputEvent.Char ('i')])
        InputEvent.Space =
      ({ raw_input := "ni", analysis := { segment := ["ni"], preedit := "ni" },
         caret := 1, confirm := 1, confirm_text := "" },
       [Action.Commit ("你")]) ∧
    ("ni" : String) ≠ "" := by
  constructor
  · decide
  · decide

/-- Byte order on text is asymmetric. -/
theorem str_lt_asymm : ∀ a b : List Char, str_lt a b = true → str_lt b a = false
  | [], [] => by simp [str_lt]
  | [], _ :: _ => by simp [str_lt]
  | _ :: _, [] => by simp [str_lt]
  | a :: as, b :: bs => by
    intro h
    by_cases h1 : a.toNat < b.toNat
    · have h2 : ¬ b.toNat < a.toNat := by omega
      simp [str_lt, h1, h2]
    · by_cases h2 : b.toNat < a.toNat
      · simp [str_lt, h1, h2] at h
      · simp only [str_lt, if_neg h1, if_neg h2] at h ⊢
        exact str_lt_asymm as bs h

/-- Byte order on text is a strict weak order: `a < c` forces `a < b` or
`b < c` for any `b`. -/
theorem str_lt_chain : ∀ a b c : List Char,
    str_lt a c = true → str_lt a b = true ∨ str_lt b c = true
  | [], [], _ => fun h => Or.inr h
  | [], _ :: _, _ => fun _ => Or.inl (by simp [str_lt])
  | _ :: _, _, [] => fun h => by simp [str_lt] at h
  | _ :: _, [], _ :: _ => fun _ => Or.inr (by simp [str_lt])
  | x :: xs, z :: zs, y :: ys => fun h => by
    simp only [str_lt] at h ⊢
    by_cases h1 : x.toNat < z.toNat
    · exact Or.inl (by rw [if_pos h1])
    · by_cases h2 : z.toNat < y.toNat
      · exact Or.inr (by rw [if_pos h2])
      · by_cases h3 : x.toNat < y.toNat
        · omega
        · rw [if_neg h3] at h
          by_cases h4 : y.toNat < x.toNat
          · rw [if_pos h4] at h
            exact absurd h (by simp)
          · rw [if_neg h4] at h
            rcases str_lt_chain xs zs ys h with h5 | h5
            · exact Or.inl (by rw [if_neg h1, if_neg (by omega)]; exact h5)
            · exact Or.inr (by rw [if_neg h2, if_neg (by omega)]; exact h5)

/-- `text_le` is total. -/
theorem text_le_total (a b : String) : text_le a b = true ∨ text_le b a = true := by
  unfold text_le
  cases h : str_lt b.data a.data
  · simp
  · simp [str_lt_asymm _ _ h]

/-- `text_le` is transitive. -/
theorem text_le_trans {a b c : String} (hab : text_le a b = true)
    (hbc : text_le b c = true) : text_le a c = true := by
  unfold text_le at *
  cases h : str_lt c.data a.data
  · simp
  · rcases str_lt_chain c.data b.data a.data h with h1 | h1 <;>
      simp [h1] at hbc hab

/-- The filter comparator is total. -/
theorem candLe_total (a b : Candidate) : candLe a b ∨ candLe b a := by
  unfold candLe
  rcases lt_trichotomy a.weight b.weight with h | h | h
  · exact Or.inr (Or.inl h)
  · rcases text_le_total a.text b.text with ht | ht
    · exact Or.inl (Or.inr ⟨h, ht⟩)
    · exact Or.inr (Or.inr ⟨h.symm, ht⟩)
  · exact Or.inl (Or.inl h)

/-- The filter comparator is transitive. -/
theorem candLe_trans (a b c : Candidate) (h1 : candLe a b) (h2 : candLe b c) :
    candLe a c := by
  unfold candLe at *
  rcases h1 with h1 | ⟨h1, t1⟩
  · rcases h2 with h2 | ⟨h2, _⟩
    · exact Or.inl (by omega)
    · exact Or.inl (by omega)
  · rcases h2 with h2 | ⟨h2, t2⟩
    · exact Or.inl (by omega)
    · exact Or.inr ⟨by omega, text_le_trans t1 t2⟩

/-- `dedup_go` returns a sublist of its input. -/
theorem dedup_go_sublist : ∀ (last : Candidate) (l : List Candidate),
    (dedup_go last l).Sublist l
  | _, [] => List.Sublist.refl []
  | last, b :: rest => by
    unfold dedup_go
    split
    · exact (dedup_go_sublist last rest).trans (List.sublist_cons_self b rest)
    · exact (dedup_go_sublist b rest).cons₂ b

/-- `dedup_by` returns a sublist of its input. -/
theorem dedup_by_sublist : ∀ l : List Candidate, (dedup_by l).Sublist l
  | [] => List.Sublist.refl []
  | a :: rest => (dedup_go_sublist a rest).cons₂ a

/-- After `dedup_go`, no surviving element repeats the triple of the
element retained just before it. -/
theorem dedup_go_chain : ∀ (l : List Candidate) (last : Candidate),
    List.Chain' (fun a b => ¬ sameTriple b a) (last :: dedup_go last l)
  | [], _ => List.chain'_singleton _
  | b :: rest, last => by
    unfold dedup_go
    split
    · exact dedup_go_chain rest last
    · rename_i hne
      exact List.chain'_cons.mpr ⟨hne, dedup_go_chain rest b⟩

/-- After `dedup_by`, consecutive candidates never share the dedup
triple. -/
theorem dedup_by_chain : ∀ l : List Candidate,
    List.Chain' (fun a b => ¬ sameTriple b a) (dedup_by l)
  | [] => List.chain'_nil
  | a :: rest => dedup_go_chain rest a

/-- C4 (amended): `DedupSortTruncate::apply` returns a list sorted by
weight descending then text ascending, in which no two CONSECUTIVE
candidates share `(text, segment_start, segment_end)` (deduplication
removes only consecutive-after-sort duplicates), of length at most
`max limit 1`. -/
theorem C4_filter_laws (f : DedupSortTruncate) (l : List Candidate) :
    List.Sorted candLe (f.apply l) ∧
    List.Chain' (fun a b => ¬ sameTriple b a) (f.apply l) ∧
    (f.apply l).length ≤ max f.limit 1 := by
  unfold DedupSortTruncate.apply
  refine ⟨?_, ?_, ?_⟩
  · have hs : List.Sorted candLe (List.insertionSort candLe l) :=
      @List.sorted_insertionSort Candidate candLe _ ⟨candLe_total⟩
        ⟨candLe_trans⟩ l
    exact List.Pairwise.sublist
      ((List.take_sublist _ _).trans (dedup_by_sublist _)) hs
  · exact (dedup_by_chain _).take _
  · exact List.length_take_le _ _

/-- C4 counterexample: with three candidates over the same span, texts
`a` (weight 5), `b` (weight 4), `a` (weight 3), the two `a` entries are
not adjacent after sorting, so both survive deduplication: the output
does contain two candidates sharing `(text, segment_start, segment_end)`,
refuting the claim's global-uniqueness law. -/
theorem C4_counterexample :
    ¬ List.Pairwise (fun a b => ¬ sameTriple a b)
      (DedupSortTruncate.apply { limit := 9 }
        [{ text := "a", comment := none, weight := 5, segment_start := 0, segment_end := 1 },
         { text := "b", comment := none, weight := 4, segment_start := 0, segment_end := 1 },
         { text := "a", comment := none, weight := 3, segment_start := 0, segment_end := 1 }]) := by
  decide

/-- The beam-composition stage never exceeds the limit it is given. -/
theorem compose_sentence_len (t : DictTranslator) (segments : List String)
    (start e k : Nat) :
    (compose_sentence_candidates t segments start e k).length ≤ k := by
  unfold compose_sentence_candidates
  split
  · simp
  · dsimp only
    simp only [List.length_map, List.length_take]
    exact min_le_left _ _

/-- Summing bounded blocks: if each block has length at most `c`, a
`flatMap` over `l` has length at most `l.length * c`. -/
theorem flatMap_length_le {α β : Type} (l : List α) (g : α → List β) (c : Nat)
    (h : ∀ a, (g a).length ≤ c) : (l.flatMap g).length ≤ l.length * c := by
  induction l with
  | nil => simp
  | cons a t ih =>
    simp only [List.flatMap_cons, List.length_append, List.length_cons]
    calc (g a).length + (t.flatMap g).length ≤ c + t.length * c :=
          Nat.add_le_add (h a) ih
      _ = (t.length + 1) * c := by ring

/-- C3 (amended): for a dictionary that returns at most the requested
number of candidates per call, `translate_with_composition` returns at
most `max limit 1 + max max_word_length 1 * max per_span_limit 1`
candidates: the direct stage is capped at `max limit 1`, the word stage at
`max per_span_limit 1` per word length, and only the beam stage is capped
by the remaining budget under `limit` — so the total may exceed `limit`
itself (the engine's filter truncates later). -/
theorem C3_translate_length_bound (t : DictTranslator) (segment : List String)
    (start e limit : Nat)
    (hdict : ∀ s a b k, (t.dict s a b k).length ≤ k) :
    (t.translate_with_composition segment start e limit).length ≤
      max limit 1 + max t.max_word_length 1 * max t.per_span_limit 1 := by
  unfold DictTranslator.translate_with_composition
  dsimp only
  have hdirect :
      ((t.dict segment start e (max limit 1)).map
        (fun c => { c with segment_start := start, segment_end := e })).length ≤
        max limit 1 := by
    rw [List.length_map]; exact hdict _ _ _ _
  have hwords :
      ((List.range' (start + 1) (min (start + max t.max_word_length 1) e - start)).flatMap
        (fun j => (t.dict segment start j (max t.per_span_limit 1)).map
          (fun c => { c with segment_start := start, segment_end := j }))).length ≤
        max t.max_word_length 1 * max t.per_span_limit 1 := by
    have hb := flatMap_length_le
      (List.range' (start + 1) (min (start + max t.max_word_length 1) e - start))
      (fun j => (t.dict segment start j (max t.per_span_limit 1)).map
        (fun (c : Candidate) => { c with segment_start := start, segment_end := j }))
      (max t.per_span_limit 1)
      (fun j => by rw [List.length_map]; exact hdict _ _ _ _)
    rw [List.length_range'] at hb
    have hcount : min (start + max t.max_word_length 1) e - start ≤
        max t.max_word_length 1 := by omega
    exact hb.trans (Nat.mul_le_mul_right _ hcount)
  split
  · rename_i hlt
    have hc := compose_sentence_len t segment start e
      (max limit 1 -
        ((t.dict segment start e (max limit 1)).map
          (fun (c : Candidate) => { c with segment_start := start, segment_end := e }) ++
         (List.range' (start + 1) (min (start + max t.max_word_length 1) e - start)).flatMap
          (fun j => (t.dict segment start j (max t.per_span_limit 1)).map
            (fun (c : Candidate) => { c with segment_start := start, segment_end := j }))).length)
    rw [List.length_append]
    have hsum := List.length_append
      ((t.dict segment start e (max limit 1)).map
        (fun (c : Candidate) => { c with segment_start := start, segment_end := e }))
      ((List.range' (start + 1) (min (start + max t.max_word_length 1) e - start)).flatMap
        (fun j => (t.dict segment start j (max t.per_span_limit 1)).map
          (fun (c : Candidate) => { c with segment_start := start, segment_end := j })))
    omega
  · rw [List.length_append]
    omega

/-- C3 counterexample: with a dictionary returning one candidate for
every queried span (never more than requested), translating the two-token
segment over `[0, 2)` with `limit = 1` yields three candidates — the
direct hit plus two word-level hits — exceeding the limit. -/
theorem C3_counterexample :
    ¬ ((DictTranslator.translate_with_composition
        { dict := dictOne, max_word_length := 4, per_span_limit := 16 }
        ["a", "b"] 0 2 1).length ≤ 1) := by
  decide

/-- Witness for the amended C3 bound at a concrete dictionary. -/
theorem C3_translate_length_bound_witness :
    (DictTranslator.translate_with_composition
        { dict := emptyDict, max_word_length := 4, per_span_limit := 16 }
        ["a"] 0 1 9).length ≤ max 9 1 + max 4 1 * max 16 1 :=
  C3_translate_length_bound _ _ _ _ _ (fun _ _ _ _ => by simp [emptyDict])

/-- Every beam-composed candidate carries exactly the span `[start, e)`. -/
theorem compose_sentence_mem_spans (t : DictTranslator) (segments : List String)
    (start e k : Nat) :
    ∀ c ∈ compose_sentence_candidates t segments start e k,
      c.segment_start = start ∧ c.segment_end = e := by
  unfold compose_sentence_candidates
  split
  · simp
  · intro c hc
    dsimp only at hc
    rw [List.mem_map] at hc
    obtain ⟨p, _, hp⟩ := hc
    subst hp
    exact ⟨rfl, rfl⟩

/-- Every candidate produced by the translator for `[start, e)` with
`start < e` has its span rewritten to start exactly at `start` and end in
`(start, e]`. -/
theorem translate_mem_spans (t : DictTranslator) (segment : List String)
    (start e limit : Nat) (hse : start < e) :
    ∀ c ∈ t.translate_with_composition segment start e limit,
      c.segment_start = start ∧ start < c.segment_end ∧ c.segment_end ≤ e := by
  intro c hc
  unfold DictTranslator.translate_with_composition at hc
  dsimp only at hc
  have hdw : ∀ d,
      d ∈ (t.dict segment start e (max limit 1)).map
        (fun (x : Candidate) => { x with segment_start := start, segment_end := e }) ++
        (List.range' (start + 1) (min (start + max t.max_word_length 1) e - start)).flatMap
          (fun j => (t.dict segment start j (max t.per_span_limit 1)).map
            (fun (x : Candidate) => { x with segment_start := start, segment_end := j })) →
      d.segment_start = start ∧ start < d.segment_end ∧ d.segment_end ≤ e := by
    intro d hd
    rw [List.mem_append] at hd
    rcases hd with hd | hd
    · rw [List.mem_map] at hd
      obtain ⟨x, _, hx⟩ := hd
      subst hx
      exact ⟨rfl, hse, le_refl e⟩
    · rw [List.mem_flatMap] at hd
      obtain ⟨j, hj, hd⟩ := hd
      rw [List.mem_range'_1] at hj
      rw [List.mem_map] at hd
      obtain ⟨x, _, hx⟩ := hd
      subst hx
      refine ⟨rfl, by simp; omega, by simp; omega⟩
  split at hc
  · rw [List.mem_append] at hc
    rcases hc with hc | hc
    · exact hdw c hc
    · have hs := compose_sentence_mem_spans t segment start e _ c hc
      exact ⟨hs.1, by omega, by omega⟩
  · exact hdw c hc

/-- The filter only ever keeps candidates of its input list. -/
theorem apply_subset (f : DedupSortTruncate) (l : List Candidate) :
    ∀ c ∈ f.apply l, c ∈ l := by
  intro c hc
  unfold DedupSortTruncate.apply at hc
  exact (List.perm_insertionSort candLe l).subset
    ((dedup_by_sublist _).subset ((List.take_sublist _ _).subset hc))

/-- C8: every snapshot built by `Engine::compose_with_state` (over any
dictionary and analyzer) clamps `caret` to the segment length (defaulting
to the end), clamps `confirm` to `caret`, generates candidates only when
the segment is non-empty and `confirm < caret`, and every surfaced
candidate satisfies `confirm ≤ segment_start < segment_end ≤ caret ≤
len(segment)`. -/
theorem C8_compose_with_state_bounds (eng : Engine) (raw : String)
    (analysis : Analysis) (confirm : Nat) (caret : Option Nat) (ct : String) :
    (eng.compose_with_state raw analysis confirm caret ct).caret =
      min (caret.getD analysis.segment.length) analysis.segment.length ∧
    (eng.compose_with_state raw analysis confirm caret ct).confirm =
      min confirm (eng.compose_with_state raw analysis confirm caret ct).caret ∧
    (eng.compose_with_state raw analysis confirm caret ct).caret ≤
      analysis.segment.length ∧
    ((analysis.segment = [] ∨
        (eng.compose_with_state raw analysis confirm caret ct).caret ≤
          (eng.compose_with_state raw analysis confirm caret ct).confirm) →
      (eng.compose_with_state raw analysis confirm caret ct).candidate_list = []) ∧
    ∀ c ∈ (eng.compose_with_state raw analysis confirm caret ct).candidate_list,
      (eng.compose_with_state raw analysis confirm caret ct).confirm ≤ c.segment_start ∧
      c.segment_start < c.segment_end ∧
      c.segment_end ≤ (eng.compose_with_state raw analysis confirm caret ct).caret := by
  unfold Engine.compose_with_state
  dsimp only
  refine ⟨rfl, rfl, min_le_right _ _, ?_, ?_⟩
  · intro h
    rw [if_pos]
    rcases h with h | h
    · exact Or.inl (by simp [h])
    · exact Or.inr h
  · intro c hc
    split at hc
    · simp at hc
    · rename_i hcond
      push_neg at hcond
      have hlt : min confirm (min (caret.getD analysis.segment.length) analysis.segment.length) <
          min (caret.getD analysis.segment.length) analysis.segment.length := by
        omega
      unfold Engine.compose_from_segment at hc
      have hmem := apply_subset _ _ c hc
      obtain ⟨h1, h2, h3⟩ := translate_mem_spans _ _ _ _ _ hlt c hmem
      exact ⟨le_of_eq h1.symm, by rw [h1]; exact h2, h3⟩

/-- Witness for C8 at a concrete engine and state. -/
theorem C8_compose_with_state_bounds_witness :
    ((Engine.new niDict niAnalyzer).compose_with_state ("ni")
        { segment := ["ni"], preedit := "ni" } 0 none "").caret = 1 :=
  (C8_compose_with_state_bounds (Engine.new niDict niAnalyzer) ("ni")
      { segment := ["ni"], preedit := "ni" } 0 none "").1.trans (by decide)

end Rime

namespace Rime.Pinyin

/-- A list starts with any of its own prefixes. -/
theorem starts_with_append : ∀ (p r : List Char), starts_with (p ++ r) p = true
  | [], _ => by simp [starts_with]
  | a :: p, r => by simp [starts_with, starts_with_append p r]

/-- What `starts_with l p` means: taking `p.length` of `l` recovers `p`. -/
theorem starts_with_take : ∀ (l p : List Char), starts_with l p = true →
    l.take p.length = p ∧ p.length ≤ l.length
  | _, [] => by simp
  | [], _ :: _ => by simp [starts_with]
  | a :: l, b :: ps => by
    simp only [starts_with, Bool.and_eq_true, beq_iff_eq]
    intro h
    obtain ⟨h1, h2⟩ := h
    obtain ⟨ht, hl⟩ := starts_with_take l ps h2
    subst h1
    refine ⟨?_, ?_⟩
    · simp [List.length_cons, List.take_succ_cons, ht]
    · simp only [List.length_cons]
      omega

/-- Definedness of DP entries survives any fold of monotone steps. -/
theorem foldl_DPle {α : Type} (g : DP → α → DP)
    (hg : ∀ st a, DPle st (g st a)) :
    ∀ (l : List α) (st : DP), DPle st (l.foldl g st) := by
  intro l
  induction l with
  | nil => intro st j h; simpa using h
  | cons a t ih => intro st j h; exact ih (g st a) j (hg st a j h)

/-- `dpUpdate` never erases a defined entry. -/
theorem dpUpdate_le (st : DP) (j : Nat) (score : Int)
    (entry : Nat × List Char × Int) : DPle st (dpUpdate st j score entry) := by
  intro k hk
  by_cases h : k = j <;> simp [dpUpdate, h, hk]

/-- One inner-loop step never erases a defined entry. -/
theorem dpTry_le (chunk : List Char) (i : Nat) (base : Int) :
    ∀ (st : DP) (sf : List Char × Int), DPle st (dpTry chunk i base st sf) := by
  intro st sf k hk
  unfold dpTry
  split
  · dsimp only
    split
    · exact dpUpdate_le st _ _ _ k hk
    · split
      · exact dpUpdate_le st _ _ _ k hk
      · exact hk
  · exact hk

/-- One outer-loop step never erases a defined entry. -/
theorem dpStep_le (vocab : List (List Char × Int)) (chunk : List Char) :
    ∀ (st : DP) (i : Nat), DPle st (dpStep vocab chunk st i) := by
  intro st i k hk
  unfold dpStep
  split
  · exact hk
  · exact foldl_DPle (dpTry chunk i _) (dpTry_le chunk i _) vocab st k hk

/-- Processing a matching entry defines the target position. -/
theorem dpTry_hit (chunk : List Char) (i : Nat) (base : Int) (sy : List Char)
    (f : Int) (hsw : starts_with (chunk.drop i) sy = true) :
    ∀ st : DP, ((dpTry chunk i base st (sy, f)).best (i + sy.length)).isSome = true := by
  intro st
  unfold dpTry
  rw [if_pos hsw]
  dsimp only
  split
  · simp [dpUpdate]
  · rename_i cur heq
    split
    · simp [dpUpdate]
    · simp [heq]

/-- A fold of monotone steps that contains a hit defines the target. -/
theorem foldl_isSome_estab {α : Type} (g : DP → α → DP)
    (hmono : ∀ st a, DPle st (g st a)) (j : Nat) (a₀ : α)
    (hhit : ∀ st, ((g st a₀).best j).isSome = true) :
    ∀ (l : List α) (st : DP), a₀ ∈ l → ((l.foldl g st).best j).isSome = true := by
  intro l
  induction l with
  | nil => intro st h; simp at h
  | cons b t ih =>
    intro st hmem
    rw [List.foldl_cons]
    rcases List.mem_cons.mp hmem with h | h
    · subst h
      exact foldl_DPle g hmono t (g st a₀) j (hhit st)
    · exact ih (g st b) h

/-- If position `i` is defined and a vocabulary spelling matches the chunk
at `i`, the outer step at `i` defines position `i + len`. -/
theorem dpStep_reach (vocab : List (List Char × Int)) (chunk : List Char)
    (st : DP) (i : Nat) (sy : List Char) (f : Int)
    (hbi : (st.best i).isSome = true) (hmem : (sy, f) ∈ vocab)
    (hsw : starts_with (chunk.drop i) sy = true) :
    ((dpStep vocab chunk st i).best (i + sy.length)).isSome = true := by
  obtain ⟨base, hb⟩ := Option.isSome_iff_exists.mp hbi
  simp only [dpStep, hb]
  exact foldl_isSome_estab (dpTry chunk i base) (dpTry_le chunk i base)
    (i + sy.length) (sy, f) (dpTry_hit chunk i base sy f hsw) vocab st hmem

/-- Reachability: if the rest of the chunk from a defined position `i`
decomposes into known non-empty spellings, the final position is defined
after running the outer loop from `i` to the end. -/
theorem dp_reach (vocab : List (List Char × Int)) (chunk : List Char) :
    ∀ (toks : List (List Char)) (i : Nat) (st : DP),
      (∀ u ∈ toks, ∃ f, (u, f) ∈ vocab) → (∀ u ∈ toks, u ≠ []) →
      chunk.drop i = toks.flatten → i ≤ chunk.length →
      (st.best i).isSome = true →
      (((List.range' i (chunk.length - i)).foldl (dpStep vocab chunk) st).best
        chunk.length).isSome = true := by
  intro toks
  induction toks with
  | nil =>
    intro i st _ _ hdrop hile hbi
    have hin : chunk.length ≤ i := List.drop_eq_nil_iff.mp (by simp [hdrop])
    have hieq : i = chunk.length := by omega
    subst hieq
    simpa [Nat.sub_self] using hbi
  | cons u rest ih =>
    intro i st hknown hne hdrop hile hbi
    have hu_ne : u ≠ [] := hne u (by simp)
    obtain ⟨f, hmem⟩ := hknown u (by simp)
    have hulen : 0 < u.length := List.length_pos.mpr hu_ne
    have hlen2 : ((u :: rest).flatten).length = chunk.length - i := by
      rw [← hdrop]; exact List.length_drop i chunk
    rw [List.flatten_cons, List.length_append] at hlen2
    have hj_le : i + u.length ≤ chunk.length := by omega
    have hsw : starts_with (chunk.drop i) u = true := by
      rw [hdrop]; exact starts_with_append u rest.flatten
    have hrange : List.range' i (chunk.length - i) =
        i :: List.range' (i + 1) (chunk.length - i - 1) := by
      have h : chunk.length - i = (chunk.length - i - 1) + 1 := by omega
      conv_lhs => rw [h]
      rw [List.range'_succ]
    rw [hrange, List.foldl_cons]
    have hj1 : ((dpStep vocab chunk st i).best (i + u.length)).isSome = true :=
      dpStep_reach vocab chunk st i u f hbi hmem hsw
    have hsplit : List.range' (i + 1) (chunk.length - i - 1) =
        List.range' (i + 1) (i + u.length - (i + 1)) ++
          List.range' (i + u.length) (chunk.length - (i + u.length)) := by
      have h0 := List.range'_append (i + 1) (i + u.length - (i + 1))
        (chunk.length - (i + u.length)) 1
      have h1 : (i + 1) + 1 * (i + u.length - (i + 1)) = i + u.length := by omega
      have h2 : (chunk.length - (i + u.length)) + (i + u.length - (i + 1)) =
          chunk.length - i - 1 := by omega
      rw [h1, h2] at h0
      exact h0.symm
    rw [hsplit, List.foldl_append]
    have hj2 : ((((List.range' (i + 1) (i + u.length - (i + 1)))).foldl
        (dpStep vocab chunk) (dpStep vocab chunk st i)).best (i + u.length)).isSome = true :=
      foldl_DPle (dpStep vocab chunk) (dpStep_le vocab chunk) _ _ _ hj1
    have hdrop2 : chunk.drop (i + u.length) = rest.flatten := by
      rw [← List.drop_drop, hdrop, List.flatten_cons, List.drop_left]
    exact ih (i + u.length) _ (fun x hx => hknown x (by simp [hx]))
      (fun x hx => hne x (by simp [hx])) hdrop2 hj_le hj2

/-- Recording a valid choice preserves the backtracking invariant and the
definedness of the source position. -/
theorem dpUpdate_inv (vocab : List (List Char × Int)) (chunk : List Char)
    (st : DP) (hInv : Inv vocab chunk st) (i : Nat) (sy : List Char) (f : Int)
    (score : Int) (hmem : (sy, f) ∈ vocab) (hsy : sy ≠ [])
    (hsw : starts_with (chunk.drop i) sy = true)
    (hbi : (st.best i).isSome = true) :
    Inv vocab chunk (dpUpdate st (i + sy.length) score (i, sy, f)) ∧
    ((dpUpdate st (i + sy.length) score (i, sy, f)).best i).isSome = true := by
  have hlen : 0 < sy.length := List.length_pos.mpr hsy
  have hij : ¬ (i = i + sy.length) := by omega
  constructor
  · intro j' hj' hsome'
    by_cases hjj : j' = i + sy.length
    · subst hjj
      refine ⟨i, sy, f, ?_, hmem, hsy, rfl, hsw, ?_⟩
      · simp [dpUpdate]
      · simp only [dpUpdate]
        rw [if_neg hij]
        exact hbi
    · have hsome'' : (st.best j').isSome = true := by
        simpa [dpUpdate, hjj] using hsome'
      obtain ⟨p, sy', f', hprev, hmem', hsy', hplen, hsw', hbp⟩ :=
        hInv j' hj' hsome''
      refine ⟨p, sy', f', ?_, hmem', hsy', hplen, hsw', ?_⟩
      · simp only [dpUpdate]
        rw [if_neg hjj]
        exact hprev
      · by_cases hpj : p = i + sy.length
        · simp [dpUpdate, hpj]
        · simp only [dpUpdate]
          rw [if_neg hpj]
          exact hbp
  · simp only [dpUpdate]
    rw [if_neg hij]
    exact hbi

/-- One inner-loop step preserves the invariant and the definedness of the
current position. -/
theorem dpTry_inv (vocab : List (List Char × Int)) (chunk : List Char)
    (i : Nat) (base : Int) (sf : List Char × Int) (hsfne : sf.1 ≠ [])
    (hsf : sf ∈ vocab) (st : DP) (hInv : Inv vocab chunk st)
    (hbi : (st.best i).isSome = true) :
    Inv vocab chunk (dpTry chunk i base st sf) ∧
    ((dpTry chunk i base st sf).best i).isSome = true := by
  have hmem : (sf.1, sf.2) ∈ vocab := by rw [Prod.mk.eta]; exact hsf
  unfold dpTry
  split
  · rename_i hsw
    dsimp only
    split
    · exact dpUpdate_inv vocab chunk st hInv i sf.1 sf.2 _ hmem hsfne hsw hbi
    · split
      · exact dpUpdate_inv vocab chunk st hInv i sf.1 sf.2 _ hmem hsfne hsw hbi
      · exact ⟨hInv, hbi⟩
  · exact ⟨hInv, hbi⟩

/-- The inner vocabulary fold preserves the invariant. -/
theorem foldl_dpTry_inv (vocab : List (List Char × Int)) (chunk : List Char)
    (i : Nat) (base : Int) :
    ∀ (l : List (List Char × Int)), (∀ x ∈ l, x ∈ vocab) →
    (∀ x ∈ l, x.1 ≠ []) → ∀ st, Inv vocab chunk st →
    (st.best i).isSome = true →
    Inv vocab chunk (l.foldl (dpTry chunk i base) st) ∧
    ((l.foldl (dpTry chunk i base) st).best i).isSome = true := by
  intro l
  induction l with
  | nil => intro _ _ st h hb; exact ⟨h, hb⟩
  | cons a t ih =>
    intro hsub hne st h hb
    rw [List.foldl_cons]
    obtain ⟨h1, h2⟩ := dpTry_inv vocab chunk i base a (hne a (by simp))
      (hsub a (by simp)) st h hb
    exact ih (fun x hx => hsub x (by simp [hx]))
      (fun x hx => hne x (by simp [hx])) _ h1 h2

/-- One outer-loop step preserves the invariant (for a vocabulary of
non-empty spellings). -/
theorem dpStep_inv (vocab : List (List Char × Int)) (chunk : List Char)
    (hne : ∀ sf ∈ vocab, sf.1 ≠ []) (st : DP) (i : Nat)
    (hInv : Inv vocab chunk st) : Inv vocab chunk (dpStep vocab chunk st i) := by
  unfold dpStep
  split
  · exact hInv
  · rename_i base hb
    exact (foldl_dpTry_inv vocab chunk i base vocab (fun x hx => hx) hne st
      hInv (by simp [hb])).1

/-- The whole outer loop preserves the invariant. -/
theorem foldl_dpStep_inv (vocab : List (List Char × Int)) (chunk : List Char)
    (hne : ∀ sf ∈ vocab, sf.1 ≠ []) :
    ∀ (l : List Nat) (st : DP), Inv vocab chunk st →
    Inv vocab chunk (l.foldl (dpStep vocab chunk) st) := by
  intro l
  induction l with
  | nil => intro st h; exact h
  | cons a t ih =>
    intro st h
    rw [List.foldl_cons]
    exact ih _ (dpStep_inv vocab chunk hne st a h)

/-- The initial DP state satisfies the invariant vacuously. -/
theorem Inv_init (vocab : List (List Char × Int)) (chunk : List Char) :
    Inv vocab chunk dpInit := by
  intro j hj hsome
  exfalso
  simp only [dpInit] at hsome
  rw [if_neg (by omega)] at hsome
  simp at hsome

/-- Soundness of the backtracking loop: from any defined position it
recovers a list of known spellings that concatenates to the prefix of the
chunk up to that position. -/
theorem backtrack_sound (vocab : List (List Char × Int)) (chunk : List Char)
    (st : DP) (hInv : Inv vocab chunk st) :
    ∀ fuel cur, cur ≤ fuel → cur ≤ chunk.length →
      (st.best cur).isSome = true →
      ∃ ts, backtrack st.prev fuel cur = some ts ∧
        ts.flatten = chunk.take cur ∧
        (∀ u ∈ ts, ∃ f, (u, f) ∈ vocab) ∧ (0 < cur → ts ≠ []) := by
  intro fuel
  induction fuel with
  | zero =>
    intro cur hcf _ _
    have hc0 : cur = 0 := by omega
    subst hc0
    exact ⟨[], by simp [backtrack], by simp, by simp, by omega⟩
  | succ fuel ih =>
    intro cur hcf hcl hcs
    by_cases hc0 : cur = 0
    · subst hc0
      exact ⟨[], by simp [backtrack], by simp, by simp, by omega⟩
    · obtain ⟨p, sy, f, hprev, hmem, hsy, hplen, hsw, hbp⟩ :=
        hInv cur (by omega) hcs
      have hlen : 0 < sy.length := List.length_pos.mpr hsy
      obtain ⟨ts, hts, hflat, hmems, _⟩ := ih p (by omega) (by omega) hbp
      refine ⟨ts ++ [sy], ?_, ?_, ?_, by simp⟩
      · simp only [backtrack]
        rw [if_neg hc0, hprev]
        dsimp only
        rw [hts]
        rfl
      · rw [List.flatten_append, hflat]
        have htk := (starts_with_take (chunk.drop p) sy hsw).1
        have : chunk.take (p + sy.length) =
            chunk.take p ++ (chunk.drop p).take sy.length := List.take_add chunk p sy.length
        rw [hplen] at this
        rw [this, htk]
        simp
      · intro u hu
        rcases List.mem_append.mp hu with h | h
        · exact hmems u h
        · simp at h
          subst h
          exact ⟨f, hmem⟩

/-- Completeness of `segment_chunk`: a chunk that concatenates known,
non-empty, lowercase spellings is segmented into some list of known
spellings concatenating back to the chunk. -/
theorem segment_chunk_complete (vocab : List (List Char × Int))
    (hvne : ∀ sf ∈ vocab, sf.1 ≠ [])
    (toks : List (List Char)) (h0 : toks ≠ [])
    (hknown : ∀ u ∈ toks, ∃ f, (u, f) ∈ vocab)
    (htne : ∀ u ∈ toks, u ≠ [])
    (hlow : ∀ u ∈ toks, ∀ c ∈ u, is_ascii_lowercase c = true) :
    ∃ segs, segment_chunk vocab toks.flatten = some segs ∧
      segs.flatten = toks.flatten ∧ segs ≠ [] ∧
      ∀ s ∈ segs, ∃ f, (s, f) ∈ vocab := by
  have hchunk_ne : toks.flatten ≠ [] := by
    obtain ⟨u, rest, rfl⟩ : ∃ u rest, toks = u :: rest := by
      cases toks with
      | nil => exact absurd rfl h0
      | cons u rest => exact ⟨u, rest, rfl⟩
    have hu := htne u (by simp)
    simp only [List.flatten_cons]
    intro hcontra
    rw [List.append_eq_nil] at hcontra
    exact hu hcontra.1
  have hall : (toks.flatten).all is_ascii_lowercase = true := by
    rw [List.all_eq_true]
    intro c hc
    rw [List.mem_flatten] at hc
    obtain ⟨u, hu, hcu⟩ := hc
    exact hlow u hu c hcu
  have hfinal : ((runDP vocab toks.flatten).best toks.flatten.length).isSome = true := by
    unfold runDP
    rw [List.range_eq_range']
    have h := dp_reach vocab toks.flatten toks 0 dpInit hknown htne (by simp)
      (by simp) (by simp [dpInit])
    simpa using h
  have hInvF : Inv vocab toks.flatten (runDP vocab toks.flatten) := by
    unfold runDP
    exact foldl_dpStep_inv vocab toks.flatten hvne _ dpInit
      (Inv_init vocab toks.flatten)
  obtain ⟨v, hv⟩ := Option.isSome_iff_exists.mp hfinal
  obtain ⟨ts, hts, hflat, hmems, hne2⟩ := backtrack_sound vocab toks.flatten
    (runDP vocab toks.flatten) hInvF toks.flatten.length toks.flatten.length
    (le_refl _) (le_refl _) hfinal
  refine ⟨ts, ?_, ?_, ?_, hmems⟩
  · unfold segment_chunk
    rw [if_neg hchunk_ne, if_neg (by simp [hall])]
    simp only [hv]
    exact hts
  · rw [hflat, List.take_length]
  · exact hne2 (List.length_pos.mpr hchunk_ne)

/-- An ASCII lowercase letter is not the break marker. -/
theorem lower_ne_marker (c : Char) (h : is_ascii_lowercase c = true) :
    c ≠ breakMarker := by
  intro he
  rw [he] at h
  exact absurd h (by decide)

/-- Lowercasing keeps ASCII lowercase letters unchanged. -/
theorem to_lower_id (c : Char) (h : is_ascii_lowercase c = true) :
    to_ascii_lowercase c = c := by
  simp only [is_ascii_lowercase, Bool.and_eq_true, decide_eq_true_eq] at h
  unfold to_ascii_lowercase
  rw [if_neg (by omega)]

/-- Splitting on the break marker is trivial when it never occurs. -/
theorem splitOn_no_marker (l : List Char) (h : ∀ c ∈ l, c ≠ breakMarker) :
    l.splitOn breakMarker = [l] := by
  simp only [List.splitOn]
  exact List.splitOnP_eq_single _ _ (fun x hx => by simp [h x hx])

/-- Completeness of `segment` on marker-free decomposable input. -/
theorem segment_complete (vocab : List (List Char × Int))
    (hvne : ∀ sf ∈ vocab, sf.1 ≠ [])
    (toks : List (List Char)) (h0 : toks ≠ [])
    (hknown : ∀ u ∈ toks, ∃ f, (u, f) ∈ vocab)
    (htne : ∀ u ∈ toks, u ≠ [])
    (hlow : ∀ u ∈ toks, ∀ c ∈ u, is_ascii_lowercase c = true) :
    ∃ segs, segment vocab toks.flatten = some segs ∧
      segs.flatten = toks.flatten ∧ segs ≠ [] ∧
      ∀ s ∈ segs, ∃ f, (s, f) ∈ vocab := by
  obtain ⟨segs, hsc, hflat, hne2, hmems⟩ :=
    segment_chunk_complete vocab hvne toks h0 hknown htne hlow
  have hnom : ∀ c ∈ toks.flatten, c ≠ breakMarker := by
    intro c hc
    rw [List.mem_flatten] at hc
    obtain ⟨u, hu, hcu⟩ := hc
    exact lower_ne_marker c (hlow u hu c hcu)
  refine ⟨segs, ?_, hflat, hne2, hmems⟩
  unfold segment
  rw [splitOn_no_marker _ hnom]
  simp [List.foldlM, hsc]

/-- Mapping a function that is the identity on every member is the
identity. -/
theorem map_id_of_mem {α : Type} (l : List α) (f : α → α)
    (h : ∀ x ∈ l, f x = x) : l.map f = l := by
  induction l with
  | nil => rfl
  | cons a t ih =>
    rw [List.map_cons, h a (by simp), ih (fun x hx => h x (by simp [hx]))]

/-- C5 counterexample: with the vocabulary `ab`, `a`, `b` (all known
spellings), the concatenation of the known spellings `a`, `b` analyzes to
the single token `ab`, not to the token list `a`, `b`: the DP picks a
best-scoring decomposition, not necessarily the one the string was built
from. -/
theorem C5_counterexample :
    ([('a')], (0 : Int)) ∈ vocabAB ∧ ([('b')], (0 : Int)) ∈ vocabAB ∧
    (analyze vocabAB (String.mk [('a'), ('b')])).segment = ["ab"] ∧
    (["ab"] : List String) ≠ ["a", "b"] := by
  decide

/-- C5 (amended): for every vocabulary of non-empty spellings and every
non-empty list of known, non-empty, ASCII-lowercase spellings, analyzing
their concatenation yields SOME decomposition into known spellings — the
returned token list consists of known spellings, concatenates back to the
input (order preserved), and `preedit` is the tokens joined by single
spaces.  (The exact input list is not always recovered: see the
counterexample.) -/
theorem C5_segmentation_roundtrip (vocab : List (List Char × Int))
    (toks : List (List Char))
    (hvne : ∀ sf ∈ vocab, sf.1 ≠ [])
    (h0 : toks ≠ [])
    (hknown : ∀ u ∈ toks, ∃ f, (u, f) ∈ vocab)
    (hlow : ∀ u ∈ toks, u ≠ [] ∧ ∀ c ∈ u, is_ascii_lowercase c = true) :
    ∃ segs : List (List Char),
      analyze vocab (String.mk toks.flatten) =
        { segment := segs.map (fun t => String.mk t),
          preedit := String.intercalate (" ") (segs.map (fun t => String.mk t)) } ∧
      segs ≠ [] ∧ segs.flatten = toks.flatten ∧
      ∀ s ∈ segs, ∃ f, (s, f) ∈ vocab := by
  have htne : ∀ u ∈ toks, u ≠ [] := fun u hu => (hlow u hu).1
  have hlow2 : ∀ u ∈ toks, ∀ c ∈ u, is_ascii_lowercase c = true :=
    fun u hu => (hlow u hu).2
  obtain ⟨segs, hseg, hflat, hne2, hmems⟩ :=
    segment_complete vocab hvne toks h0 hknown htne hlow2
  have hchunk_ne : toks.flatten ≠ [] := by
    obtain ⟨u, rest, rfl⟩ : ∃ u rest, toks = u :: rest := by
      cases toks with
      | nil => exact absurd rfl h0
      | cons u rest => exact ⟨u, rest, rfl⟩
    have hu := htne u (by simp)
    simp only [List.flatten_cons]
    intro hcontra
    rw [List.append_eq_nil] at hcontra
    exact hu hcontra.1
  have hlowflat : ∀ c ∈ toks.flatten, is_ascii_lowercase c = true := by
    intro c hc
    rw [List.mem_flatten] at hc
    obtain ⟨u, hu, hcu⟩ := hc
    exact hlow2 u hu c hcu
  have hlowid : toks.flatten.map to_ascii_lowercase = toks.flatten :=
    map_id_of_mem _ _ (fun c hc => to_lower_id c (hlowflat c hc))
  refine ⟨segs, ?_, hne2, hflat, hmems⟩
  unfold analyze
  have hdata : (String.mk toks.flatten).data = toks.flatten := rfl
  rw [hdata, if_neg hchunk_ne]
  dsimp only
  rw [hlowid, hseg]
  obtain ⟨s, rest, rfl⟩ : ∃ s rest, segs = s :: rest := by
    cases segs with
    | nil => exact absurd rfl hne2
    | cons s rest => exact ⟨s, rest, rfl⟩
  rfl

/-- Witness for the amended C5 on the one-spelling vocabulary `ni`. -/
theorem C5_segmentation_roundtrip_witness :
    ∃ segs : List (List Char),
      analyze vocabNi (String.mk ([[('n'), ('i')]] : List (List Char)).flatten) =
        { segment := segs.map (fun t => String.mk t),
          preedit := String.intercalate (" ") (segs.map (fun t => String.mk t)) } ∧
      segs ≠ [] ∧ segs.flatten = ([[('n'), ('i')]] : List (List Char)).flatten ∧
      ∀ s ∈ segs, ∃ f, (s, f) ∈ vocabNi :=
  C5_segmentation_roundtrip vocabNi [[('n'), ('i')]]
    (by decide)
    (by decide)
    (fun u hu => by
      simp only [List.mem_singleton] at hu
      subst hu
      exact ⟨1, by simp [vocabNi]⟩)
    (by decide)

/-- C6 counterexample: `QX` has no valid decomposition (here: over the
empty vocabulary) and is NOT made of lowercase letters and break markers,
so per the claim `analyze` should return no tokens and the raw input
unchanged as preedit; the code lowercases first, so it takes the initials
branch and returns tokens `q`,`x` with preedit `q x` ≠ `QX`. -/
theorem C6_counterexample :
    segment ([] : List (List Char × Int)) (("QX").data.map to_ascii_lowercase) = none ∧
    letters_only (("QX").data) = false ∧
    analyze ([] : List (List Char × Int)) ("QX") =
      { segment := ["q", "x"], preedit := "q x" } ∧
    (["q", "x"] : List String) ≠ [] ∧ ("q x" : String) ≠ "QX" := by
  decide

/-- C6 (amended): when the lowercased input has no non-empty syllable
parse, `analyze` falls back on the LOWERCASED input: if it consists only
of lowercase letters and break markers and has length 1–6, one
single-letter token per non-marker character (markers dropped); otherwise
an empty token sequence with the lowercased raw input as preedit.  (Rust
measures the length in bytes; on the letters-only branch the input is
ASCII, where bytes and chars agree, and on the other branch the length is
not used.) -/
theorem C6_fallback (vocab : List (List Char × Int)) (raw : String)
    (h0 : raw.data ≠ [])
    (hfail : segment vocab (raw.data.map to_ascii_lowercase) = none ∨
             segment vocab (raw.data.map to_ascii_lowercase) = some []) :
    ((letters_only (raw.data.map to_ascii_lowercase) = true ∧
        1 ≤ (raw.data.map to_ascii_lowercase).length ∧
        (raw.data.map to_ascii_lowercase).length ≤ 6) →
      analyze vocab raw =
        { segment := ((raw.data.map to_ascii_lowercase).filter
            (fun c => c ≠ breakMarker)).map (fun c => String.mk [c]),
          preedit := String.intercalate (" ")
            (((raw.data.map to_ascii_lowercase).filter
              (fun c => c ≠ breakMarker)).map (fun c => String.mk [c])) }) ∧
    ((¬ (letters_only (raw.data.map to_ascii_lowercase) = true ∧
        1 ≤ (raw.data.map to_ascii_lowercase).length ∧
        (raw.data.map to_ascii_lowercase).length ≤ 6)) →
      analyze vocab raw =
        { segment := [],
          preedit := String.mk (raw.data.map to_ascii_lowercase) }) := by
  constructor
  · intro hcond
    unfold analyze
    rw [if_neg h0]
    dsimp only
    split
    · rename_i s rest heq
      rcases hfail with hf | hf <;> rw [hf] at heq <;> simp at heq
    · rw [if_pos hcond]
  · intro hcond
    unfold analyze
    rw [if_neg h0]
    dsimp only
    split
    · rename_i s rest heq
      rcases hfail with hf | hf <;> rw [hf] at heq <;> simp at heq
    · rw [if_neg hcond]

/-- Witness for the amended C6: `qs` over the empty vocabulary takes the
initials branch. -/
theorem C6_fallback_witness :
    analyze ([] : List (List Char × Int)) ("qs") =
      { segment := ["q", "s"], preedit := "q s" } :=
  ((C6_fallback ([] : List (List Char × Int)) ("qs") (by decide)
      (Or.inl (by decide))).1 (by decide)).trans (by decide)

end Rime.Pinyin
